import Mathlib

/-!
Verification of the HMM inference and training engine in
`src/include/markov/HMM.cc` (class `HMM`, a hidden Markov model over a
weighted DAG trellis).

Shallow embedding conventions:
* C++ `double` values are modelled as exact real numbers (`ℝ`).
* A failed C++ `assert` is modelled as `Option.none`; a function that can
  fail returns `Option`.
* The edge-name strings produced with `sprintf` ("S %d", "T %d %d",
  "E %d %d", "F") are modelled by the inductive type `EdgeName`, which
  carries exactly the information the strings encode and that the
  re-estimators recover by stream parsing.
* The base class `MarkovModel` and the class `WDAG` are declared in headers
  that are not part of the sources; the parts of them this file needs are
  modelled from the spec and marked as such in their doc comments.
-/

set_option maxHeartbeats 1000000

namespace Lachesis

/-- Modelled from the spec: `LOG_ZERO` (declared in the missing
`MarkovModel.h`) is a finite sentinel standing for log 0 = -infinity,
"e.g. a very large negative number". -/
def LOG_ZERO : ℝ := -(10 ^ 10)

/-- Decide an arbitrary proposition classically; used to model C++ `==`
comparisons between `double`s, which are not decidable over exact reals. -/
noncomputable def pdecide (p : Prop) : Bool := @decide p (Classical.propDecidable p)

/-- Modelled from the spec: `lnsum(a, b) = log(exp(a) + exp(b))` (declared
in the missing `MarkovModel.h`): "if either operand is LOG_ZERO, return the
other; else return max(a,b) + log1p(exp(-|a-b|))". -/
noncomputable def lnsum (a b : ℝ) : ℝ :=
  if a = LOG_ZERO then b
  else if b = LOG_ZERO then a
  else max a b + Real.log (1 + Real.exp (-|a - b|))

/-- Edge names of the trellis, per the grammar in `HMM::to_WDAG`
(`"S %d"`, `"T %d %d"`, `"E %d %d"`, `"F"`). The emitted symbol of an
emission edge is an `Int` because the source prints `-1` for continuous
HMMs. -/
inductive EdgeName where
  | S (i : Nat)
  | T (i j : Nat)
  | E (i : Nat) (s : Int)
  | F
deriving DecidableEq

/-- One in-edge of a WDAG node: the parent's id, the edge name and the
edge log-weight (fields `_parents[j]`, `_in_e_names[j]`, `_in_e_weights[j]`
of `WDAGNode`). -/
structure WEdge where
  parent : Nat
  name : EdgeName
  weight : ℝ

/-- A WDAG node stores its list of in-edges, in the order `AddEdge` was
called. -/
structure WDAGNode where
  inEdges : List WEdge

instance : Inhabited WDAGNode := ⟨⟨[]⟩⟩

/-- Modelled from the spec: the `WDAG` class (its source is not under
`src/`): an arena of nodes addressed by insertion index (`AddNode` appends,
so ids are monotonically increasing), with a designated required start and
required end node. -/
structure WDAG where
  nodes : List WDAGNode
  reqStart : Nat
  reqEnd : Nat

/-- The `HMM` class (fields of `HMM` and of its base `MarkovModel`, as used
by `HMM.cc`). All probability tables are stored in log space except
`state_freqs`, which is real-valued. -/
structure HMM where
  N_states : Nat
  N_symbols : Nat
  init_probs : List ℝ
  trans_probs : List (List ℝ)
  symbol_emiss_probs : List (List ℝ)
  observations : List Int
  time_emiss_probs : List (List ℝ)
  state_freqs : List ℝ
  has_init_probs : Bool
  has_trans_probs : Bool
  has_symbol_emiss_probs : Bool
  has_observations : Bool
  has_time_emiss_probs : Bool
  ran_viterbi : Bool
  ran_baum_welch : Bool

/-- "If N_symbols == 0, this is a continuous HMM; otherwise it's discrete"
(comment on the `HMM` constructor, `HMM.cc` line 39). -/
def HMM.is_discrete_HMM (hmm : HMM) : Bool := hmm.N_symbols != 0

/-- `HMM::HasAllData` (`HMM.cc` lines 143-159). -/
def HMM.HasAllData (hmm : HMM) : Bool :=
  hmm.has_init_probs && hmm.has_trans_probs &&
    (if hmm.is_discrete_HMM then hmm.has_symbol_emiss_probs && hmm.has_observations
     else hmm.has_time_emiss_probs)

/-- `HMM::NTimepoints` (`HMM.cc` lines 570-576). -/
def HMM.NTimepoints (hmm : HMM) : Nat :=
  if hmm.is_discrete_HMM then hmm.observations.length else hmm.time_emiss_probs.length

/-- `HMM::SetObservations` (`HMM.cc` lines 90-97): asserts the HMM is
discrete, then stores the vector verbatim — there is no range check on the
symbols. -/
def HMM.SetObservations (hmm : HMM) (observations : List Int) : Option HMM :=
  if hmm.is_discrete_HMM then
    some { hmm with observations := observations, has_observations := true }
  else none

/-- `max_element` over a row (`HMM.cc` line 129); C++ `max_element` is only
applied to nonempty rows, the `[]` case is junk. -/
noncomputable def maxElem : List ℝ → ℝ
  | [] => 0
  | x :: xs => xs.foldl max x

/-- `HMM::SetTimeEmissProbs` (`HMM.cc` lines 110-137): continuous HMMs
only; asserts the matrix is nonempty, every row has `N_states` entries and
no entry is `LOG_ZERO`; stores each row with its maximum subtracted and
sets the loaded flag. The C++ interleaves the `LOG_ZERO` asserts with the
stores, but an assert aborts the process, so the observable behaviour is
captured by checking all asserts first. -/
noncomputable def HMM.SetTimeEmissProbs (hmm : HMM) (probs : List (List ℝ)) : Option HMM :=
  if hmm.is_discrete_HMM then none
  else if probs.isEmpty then none
  else if probs.any (fun row => row.length != hmm.N_states) then none
  else if probs.any (fun row => row.any (fun x => pdecide (x = LOG_ZERO))) then none
  else some { hmm with
    time_emiss_probs := probs.map (fun row => row.map (fun x => x - maxElem row)),
    has_time_emiss_probs := true }

/-- Node id of layer-A node `i` at timepoint `t` (the node created by
`stateA[i] = wdag.AddNode()` in `HMM::to_WDAG`): `AddNode` appends, the
start node has id 0, and each timepoint adds the `N` A-nodes followed by
the `N` B-nodes, so `A_t[i]` has id `1 + 2*N*t + i`. -/
def aId (N t i : Nat) : Nat := 1 + 2 * N * t + i

/-- Node id of layer-B node `i` at timepoint `t`
(`stateB[i] = wdag.AddNode()`): `1 + 2*N*t + N + i`. -/
def bId (N t i : Nat) : Nat := 1 + 2 * N * t + N + i

/-- The symbol recorded in the name of the emission edge at timepoint `t`
(`HMM.cc` lines 237-246): `observations[t]` for a discrete HMM and the
dummy value `-1` for a continuous one. -/
def HMM.emissObs (hmm : HMM) (t : Nat) : Int :=
  if hmm.is_discrete_HMM then hmm.observations.getD t 0 else -1

/-- The emission edge weight at timepoint `t` for state `i`
(`HMM.cc` lines 237-246): `symbol_emiss_probs[i][observations[t]]` for a
discrete HMM, `time_emiss_probs[t][i]` for a continuous one. An
out-of-range index is undefined behaviour in the C++ (`vector::operator[]`
is unchecked); it is modelled by the default value 0. -/
def HMM.emissProb (hmm : HMM) (t i : Nat) : ℝ :=
  if hmm.is_discrete_HMM then
    (hmm.symbol_emiss_probs.getD i []).getD (hmm.observations.getD t 0).toNat 0
  else (hmm.time_emiss_probs.getD t []).getD i 0

/-- The in-edges of layer-A node `i` at timepoint `t` (`HMM.cc` lines
203-222): at `t = 0` the single start edge `S i` weighted `init_probs[i]`;
at `t >= 1` one transition edge `T i_prev i` from `B_(t-1)[i_prev]`
weighted `trans_probs[i_prev][i]`, for each `i_prev`. -/
def HMM.nodeA (hmm : HMM) (t i : Nat) : WDAGNode :=
  if t = 0 then ⟨[⟨0, .S i, hmm.init_probs.getD i 0⟩]⟩
  else ⟨(List.range hmm.N_states).map (fun i_prev =>
    ⟨bId hmm.N_states (t - 1) i_prev, .T i_prev i,
      (hmm.trans_probs.getD i_prev []).getD i 0⟩)⟩

/-- The in-edges of layer-B node `i` at timepoint `t` (`HMM.cc` lines
229-251): the single emission edge `E i obs` from `A_t[i]`. -/
def HMM.nodeB (hmm : HMM) (t i : Nat) : WDAGNode :=
  ⟨[⟨aId hmm.N_states t i, .E i (hmm.emissObs t), hmm.emissProb t i⟩]⟩

/-- `HMM::to_WDAG` (`HMM.cc` lines 174-268). The node list follows the
`AddNode` order of the source: the start node; then for every timepoint
`t` the `N` layer-A nodes followed by the `N` layer-B nodes; then the end
node, whose in-edges are the `F` edges of weight 0 from every
`B_(T-1)[i]`. `SetReqStart` gets the start node (id 0) and `SetReqEnd` the
end node (id `1 + 2*N*T`). -/
def HMM.to_WDAG (hmm : HMM) : WDAG :=
  let N := hmm.N_states
  let T := hmm.NTimepoints
  ⟨⟨[]⟩ ::
    ((List.range T).flatMap (fun t =>
      (List.range N).map (fun i => hmm.nodeA t i) ++
      (List.range N).map (fun i => hmm.nodeB t i)) ++
    [⟨(List.range N).map (fun i => ⟨bId N (T - 1) i, .F, 0⟩)⟩]),
  0, 1 + 2 * N * T⟩

/-- Helper for `wdagEdges`: the edges of the nodes from id `i` on. -/
def wdagEdgesAux : Nat → List WDAGNode → List (Nat × WEdge)
  | _, [] => []
  | i, nd :: rest => nd.inEdges.map (fun e => (i, e)) ++ wdagEdgesAux (i + 1) rest

/-- All edges of a WDAG as `(child id, edge)` pairs, in the order the
re-estimators visit them: "We do this indirectly, by looping over all
nodes and then by those nodes' in-edges" (`HMM.cc` lines 392-397). -/
def wdagEdges (g : WDAG) : List (Nat × WEdge) :=
  wdagEdgesAux 0 g.nodes

/-- The states of the emission edges on a path, in path order: the symbols
pushed onto `states` by the `type == 'E'` branch of
`HMM::AdjustProbsToViterbi` (`HMM.cc` lines 305-309). -/
def pathStates (names : List EdgeName) : List Nat :=
  names.filterMap (fun nm => match nm with | .E i _ => some i | _ => none)

/-- The count tables accumulated by the parsing loop of
`HMM::AdjustProbsToViterbi` (`HMM.cc` lines 286-312). Count tables are
total functions of the parsed state ids; the C++ uses `N x N` /
`N x N_symbols` vectors indexed without bounds checks. -/
structure VitTally where
  trans_counts : Nat → Nat → Nat
  emiss_counts : Nat → Int → Nat
  state_counts : Nat → Nat
  states : List Nat

/-- One iteration of the edge-name parsing loop of
`HMM::AdjustProbsToViterbi` (`HMM.cc` lines 291-312). -/
def vitStep (disc : Bool) (acc : VitTally) (nm : EdgeName) : VitTally :=
  match nm with
  | .T i j =>
    { acc with trans_counts := fun a b =>
        if a = i ∧ b = j then acc.trans_counts a b + 1 else acc.trans_counts a b }
  | .E i s =>
    { acc with
      emiss_counts :=
        if disc then fun a b =>
          if a = i ∧ b = s then acc.emiss_counts a b + 1 else acc.emiss_counts a b
        else acc.emiss_counts,
      state_counts := fun a => if a = i then acc.state_counts a + 1 else acc.state_counts a,
      states := acc.states ++ [i] }
  | _ => acc

/-- The tally of the whole best path. -/
def vitTally (disc : Bool) (best_path : List EdgeName) : VitTally :=
  best_path.foldl (vitStep disc) ⟨fun _ _ => 0, fun _ _ => 0, fun _ => 0, []⟩

/-- `HMM::AdjustProbsToViterbi` (`HMM.cc` lines 278-367). Asserts the best
path is nonempty and that it contains exactly `NTimepoints` emission
edges; sets `state_freqs[i] = state_counts[i] / NTimepoints`; renormalises
`trans_probs` (and, if discrete, `symbol_emiss_probs`) from the path
counts, with a uniform `-log N` pseudocount row where a row total is 0.
Returns the updated HMM, the `states` output vector, and the `change`
flag (true iff some stored probability differs from its prior value). -/
noncomputable def HMM.AdjustProbsToViterbi (hmm : HMM) (best_path : List EdgeName) :
    Option (HMM × List Nat × Bool) :=
  if best_path.isEmpty then none else
  let N := hmm.N_states
  let tally := vitTally hmm.is_discrete_HMM best_path
  if tally.states.length ≠ hmm.NTimepoints then none else
  let state_freqs := (List.range N).map
    (fun i => (tally.state_counts i : ℝ) / (hmm.NTimepoints : ℝ))
  let trans_probs := (List.range N).map (fun i =>
    let total := ((List.range N).map (fun j => tally.trans_counts i j)).sum
    (List.range N).map (fun j =>
      if total = 0 then -Real.log N
      else Real.log ((tally.trans_counts i j : ℝ) / (total : ℝ))))
  let symbol_emiss_probs :=
    if hmm.is_discrete_HMM then
      (List.range N).map (fun i =>
        let total := ((List.range hmm.N_symbols).map
          (fun j => tally.emiss_counts i (Int.ofNat j))).sum
        (List.range hmm.N_symbols).map (fun j =>
          if total = 0 then -Real.log hmm.N_symbols
          else Real.log ((tally.emiss_counts i (Int.ofNat j) : ℝ) / (total : ℝ))))
    else hmm.symbol_emiss_probs
  let change := pdecide (¬ (trans_probs = hmm.trans_probs ∧
    symbol_emiss_probs = hmm.symbol_emiss_probs))
  some ({ hmm with
    state_freqs := state_freqs,
    trans_probs := trans_probs,
    symbol_emiss_probs := symbol_emiss_probs }, tally.states, change)

/-- The log-space accumulators of `HMM::AdjustProbsToBaumWelch`
(`HMM.cc` lines 384-389), all initialised to `LOG_ZERO`, plus the
`n_emissions` invariant counter. -/
structure BWTally where
  new_init_probs : Nat → ℝ
  new_trans_probs : Nat → Nat → ℝ
  new_emiss_probs : Nat → Int → ℝ
  new_state_freqs : Nat → ℝ
  n_emissions : Nat

/-- One iteration of the edge loop of `HMM::AdjustProbsToBaumWelch`
(`HMM.cc` lines 394-437): the edge's posterior log-mass is
`p_prob = parent.fw_prob + child.bw_prob + edge_weight`; an `S` edge
assigns it to `new_init_probs`, a `T` (and, if discrete, an `E`) edge
`lnsum`-accumulates it; every `E` edge also accumulates
`new_state_freqs` and bumps `n_emissions`. (The NaN diagnostic print at
lines 422-423 has no effect on the state and is omitted.) -/
noncomputable def bwStep (disc : Bool) (fw bw : Nat → ℝ) (acc : BWTally)
    (q : Nat × WEdge) : BWTally :=
  let p_prob := fw q.2.parent + bw q.1 + q.2.weight
  match q.2.name with
  | .S i =>
    { acc with new_init_probs := fun a => if a = i then p_prob else acc.new_init_probs a }
  | .T i j =>
    { acc with new_trans_probs := fun a b =>
        if a = i ∧ b = j then lnsum (acc.new_trans_probs a b) p_prob
        else acc.new_trans_probs a b }
  | .E i s =>
    { acc with
      new_emiss_probs :=
        if disc then fun a b =>
          if a = i ∧ b = s then lnsum (acc.new_emiss_probs a b) p_prob
          else acc.new_emiss_probs a b
        else acc.new_emiss_probs,
      new_state_freqs := fun a =>
        if a = i then lnsum (acc.new_state_freqs a) p_prob else acc.new_state_freqs a,
      n_emissions := acc.n_emissions + 1 }
  | .F => acc

/-- The accumulators after the full edge loop of
`HMM::AdjustProbsToBaumWelch`, for a WDAG whose solved forward and
backward node values are given by `fw` and `bw` (the `_fw_prob` /
`_bw_prob` fields written by the missing `WDAG::FindPosteriorProbs`). -/
noncomputable def bwTallyOf (hmm : HMM) (g : WDAG) (fw bw : Nat → ℝ) : BWTally :=
  (wdagEdges g).foldl (bwStep hmm.is_discrete_HMM fw bw)
    ⟨fun _ => LOG_ZERO, fun _ _ => LOG_ZERO, fun _ _ => LOG_ZERO, fun _ => LOG_ZERO, 0⟩

/-- `HMM::AdjustProbsToBaumWelch` (`HMM.cc` lines 378-499). After the edge
loop, asserts `n_emissions == NTimepoints * N_states`, then normalises:
`state_freqs[j] = exp(new_state_freqs[j] - lnsum_j new_state_freqs[j])`
(real-valued), `init_probs[j] = new_init_probs[j] - lnsum_j ...`, each
`trans_probs` row by its own `lnsum` total, and (discrete only) each
`symbol_emiss_probs` row likewise. Returns the updated HMM and the
`change` flag. -/
noncomputable def HMM.AdjustProbsToBaumWelch (hmm : HMM) (g : WDAG) (fw bw : Nat → ℝ) :
    Option (HMM × Bool) :=
  let N := hmm.N_states
  let tally := bwTallyOf hmm g fw bw
  if tally.n_emissions ≠ hmm.NTimepoints * N then none else
  let denomF := (List.range N).foldl (fun d j => lnsum d (tally.new_state_freqs j)) LOG_ZERO
  let state_freqs := (List.range N).map (fun j => Real.exp (tally.new_state_freqs j - denomF))
  let denomI := (List.range N).foldl (fun d j => lnsum d (tally.new_init_probs j)) LOG_ZERO
  let init_probs := (List.range N).map (fun j => tally.new_init_probs j - denomI)
  let trans_probs := (List.range N).map (fun i =>
    let denom := (List.range N).foldl (fun d j => lnsum d (tally.new_trans_probs i j)) LOG_ZERO
    (List.range N).map (fun j => tally.new_trans_probs i j - denom))
  let symbol_emiss_probs :=
    if hmm.is_discrete_HMM then
      (List.range N).map (fun i =>
        let denom := (List.range hmm.N_symbols).foldl
          (fun d j => lnsum d (tally.new_emiss_probs i (Int.ofNat j))) LOG_ZERO
        (List.range hmm.N_symbols).map (fun j => tally.new_emiss_probs i (Int.ofNat j) - denom))
    else hmm.symbol_emiss_probs
  let change := pdecide (¬ (init_probs = hmm.init_probs ∧ trans_probs = hmm.trans_probs ∧
    symbol_emiss_probs = hmm.symbol_emiss_probs))
  some ({ hmm with
    state_freqs := state_freqs,
    init_probs := init_probs,
    trans_probs := trans_probs,
    symbol_emiss_probs := symbol_emiss_probs }, change)

/-- Modelled from the spec: the forward pass of the missing
`WDAG::FindPosteriorProbs`: in topological (insertion) order,
`fw[start] = 0` and `fw[v] = lnsum` over in-edges `(u, name, w)` of
`fw[u] + w`. -/
noncomputable def fwList (g : WDAG) : List ℝ :=
  g.nodes.foldl (fun acc nd =>
    acc ++ [if acc.length = g.reqStart then 0
            else nd.inEdges.foldl (fun s e => lnsum s (acc.getD e.parent LOG_ZERO + e.weight))
              LOG_ZERO]) []

/-- Modelled from the spec: `alpha = fw[end]`, the total log-likelihood of
the trellis, exposed by `WDAG::Alpha`. -/
noncomputable def alpha (g : WDAG) : ℝ := (fwList g).getD g.reqEnd LOG_ZERO

/-- Modelled from the spec: a start-to-end walk of the trellis, recorded
as the sequence of edge names along it. `WDAG::FindBestPath` (not under
`src/`) returns in `_best_edges` the name sequence of one such path (the
maximum-weight one). -/
inductive IsPath (g : WDAG) : Nat → List EdgeName → Prop where
  | nil : IsPath g g.reqStart []
  | cons {u v : Nat} {names : List EdgeName} {e : WEdge} :
      IsPath g u names → v < g.nodes.length → e ∈ (g.nodes.getD v default).inEdges →
      e.parent = u → IsPath g v (names ++ [e.name])

/-! ### Concrete models used by witnesses and counterexamples -/

/-- A continuous HMM shell with 2 states (`N_symbols = 0`). -/
def hmmC : HMM :=
  ⟨2, 0, [], [], [], [], [], [], false, false, false, false, false, false, false⟩

/-- A discrete HMM with 2 states and 2 symbols. -/
def hmmD : HMM :=
  ⟨2, 2, [0, 0], [[0, 0], [0, 0]], [[0, 0], [0, 0]], [], [], [],
   true, true, true, false, false, false, false⟩

/-! ### C10 -/

/-- C10: `SetTimeEmissProbs` rejects an empty matrix (the
`assert( !probs.empty() )` at `HMM.cc` line 116), so whenever it
succeeds the stored time-emission table — whose row count is what
`NTimepoints` reports for a continuous HMM — has at least one row. -/
theorem claim10_set_time_emiss_rejects_empty :
    (∀ hmm : HMM, hmm.SetTimeEmissProbs [] = none) ∧
    ∀ (hmm : HMM) (probs : List (List ℝ)),
      ((hmm.SetTimeEmissProbs probs).all
        (fun out => decide (1 ≤ out.time_emiss_probs.length))) = true := by
  constructor
  · intro hmm
    unfold HMM.SetTimeEmissProbs
    split
    · rfl
    · simp
  · intro hmm probs
    unfold HMM.SetTimeEmissProbs
    split
    · rfl
    split
    next hne =>
      rfl
    next hne =>
      split
      · rfl
      split
      · rfl
      have : probs ≠ [] := by
        intro h
        rw [h] at hne
        exact hne rfl
      have hpos : 1 ≤ probs.length := List.length_pos.mpr this
      simp [Option.all, hpos]

/-! ### C6 -/

/-- C6: for a continuous HMM, `SetTimeEmissProbs` fails on every matrix
containing a `LOG_ZERO` entry (so the loaded flag is never set for it),
and accepts every well-shaped matrix free of the `LOG_ZERO` sentinel,
marking the table as loaded (`HMM.cc` lines 110-137). -/
theorem claim6_set_time_emiss_rejects_log_zero :
    ∀ (hmm : HMM) (probs : List (List ℝ)), hmm.is_discrete_HMM = false →
      ((∃ row ∈ probs, ∃ x ∈ row, x = LOG_ZERO) → hmm.SetTimeEmissProbs probs = none) ∧
      (probs ≠ [] → (∀ row ∈ probs, row.length = hmm.N_states) →
        (∀ row ∈ probs, ∀ x ∈ row, x ≠ LOG_ZERO) →
        ∃ out, hmm.SetTimeEmissProbs probs = some out ∧ out.has_time_emiss_probs = true) := by
  intro hmm probs hdisc
  constructor
  · rintro ⟨row, hrow, x, hx, hxz⟩
    have hany : (probs.any fun row => row.any fun x => pdecide (x = LOG_ZERO)) = true := by
      rw [List.any_eq_true]
      refine ⟨row, hrow, ?_⟩
      rw [List.any_eq_true]
      refine ⟨x, hx, ?_⟩
      simp [pdecide, hxz]
    simp [HMM.SetTimeEmissProbs, hdisc, hany]
  · intro hne hlen hnz
    have h1 : probs.isEmpty = false := by
      cases probs with
      | nil => exact absurd rfl hne
      | cons a l => rfl
    have h2 : (probs.any fun row => row.length != hmm.N_states) = false := by
      rw [List.any_eq_false]
      intro row hr
      simp [hlen row hr]
    have h3 : (probs.any fun row => row.any fun x => pdecide (x = LOG_ZERO)) = false := by
      rw [List.any_eq_false]
      intro row hr
      rw [Bool.not_eq_true, List.any_eq_false]
      intro x hx
      simp [pdecide, hnz row hr x hx]
    refine ⟨{ hmm with
      time_emiss_probs := probs.map (fun row => row.map (fun x => x - maxElem row)),
      has_time_emiss_probs := true }, ?_, rfl⟩
    simp [HMM.SetTimeEmissProbs, hdisc, h1, h2, h3]

/-- Witness for C6 at a concrete continuous HMM: a matrix holding
`LOG_ZERO` is rejected, a well-shaped finite one is accepted. -/
theorem claim6_witness :
    hmmC.SetTimeEmissProbs [[LOG_ZERO, 0]] = none ∧
    ∃ out, hmmC.SetTimeEmissProbs [[0, 1]] = some out ∧
      out.has_time_emiss_probs = true := by
  constructor
  · exact (claim6_set_time_emiss_rejects_log_zero hmmC [[LOG_ZERO, 0]] rfl).1
      ⟨[LOG_ZERO, 0], by simp, LOG_ZERO, by simp, rfl⟩
  · refine (claim6_set_time_emiss_rejects_log_zero hmmC [[0, 1]] rfl).2
      (by simp) ?_ ?_
    · intro row hr
      rw [List.mem_singleton] at hr
      rw [hr]
      rfl
    · intro row hr x hx
      rw [List.mem_singleton] at hr
      subst hr
      rcases List.mem_pair.mp hx with h | h <;> rw [h] <;> norm_num [LOG_ZERO]

/-! ### C5 (amended) -/

/-- C5 (amended): `SetObservations` performs no range validation: for a
discrete HMM it stores any observations vector verbatim — out-of-range
symbols included — and sets the loaded flag (`HMM.cc` lines 90-97). -/
theorem claim5_set_observations_accepts_anything :
    ∀ (hmm : HMM) (observations : List Int), hmm.is_discrete_HMM = true →
      hmm.SetObservations observations =
        some { hmm with observations := observations, has_observations := true } := by
  intro hmm obs h
  simp [HMM.SetObservations, h]

/-- Witness for C5 (amended): the discrete 2-symbol model `hmmD` accepts
the out-of-range observation list `[5]`. -/
theorem claim5_witness :
    hmmD.SetObservations [5] =
      some { hmmD with observations := [5], has_observations := true } :=
  claim5_set_observations_accepts_anything hmmD [5] rfl

/-! ### C4: shift invariance of `SetTimeEmissProbs` -/

/-- The supplied time-emission matrix with the constant `c t` added to
every entry of row `t`. -/
def shiftRows : List (List ℝ) → (Nat → ℝ) → List (List ℝ)
  | [], _ => []
  | row :: rest, c => row.map (fun x => x + c 0) :: shiftRows rest (fun t => c (t + 1))

/-- Sanity characterisation of `shiftRows`: row `t` is row `t` of the
input with `c t` added to every entry. -/
theorem shiftRows_getD (probs : List (List ℝ)) (c : Nat → ℝ) (t : Nat) :
    (shiftRows probs c).getD t [] = (probs.getD t []).map (fun x => x + c t) := by
  induction probs generalizing c t with
  | nil => cases t <;> rfl
  | cons row rest ih =>
    cases t with
    | zero => rfl
    | succ s => exact ih (fun t => c (t + 1)) s

theorem foldl_max_add (xs : List ℝ) (a c : ℝ) :
    (xs.map (fun x => x + c)).foldl max (a + c) = xs.foldl max a + c := by
  induction xs generalizing a with
  | nil => rfl
  | cons y ys ih =>
    simp only [List.map_cons, List.foldl_cons, max_add_add_right]
    exact ih (max a y)

/-- Adding a constant to every entry of a nonempty row shifts its maximum
by that constant. -/
theorem maxElem_map_add (row : List ℝ) (c : ℝ) (h : row ≠ []) :
    maxElem (row.map (fun x => x + c)) = maxElem row + c := by
  cases row with
  | nil => exact absurd rfl h
  | cons x xs => simpa [maxElem] using foldl_max_add xs x c

/-- The row-max normalisation performed by `SetTimeEmissProbs` cancels a
per-row additive constant. -/
theorem normRow_map_add (row : List ℝ) (c : ℝ) :
    (row.map (fun x => x + c)).map
        (fun x => x - maxElem (row.map (fun x => x + c))) =
      row.map (fun x => x - maxElem row) := by
  cases row with
  | nil => rfl
  | cons y ys =>
    rw [maxElem_map_add (y :: ys) c (by simp), List.map_map]
    exact List.map_congr_left (fun x _ => by simp only [Function.comp_apply]; ring)

theorem shiftRows_isEmpty (probs : List (List ℝ)) (c : Nat → ℝ) :
    (shiftRows probs c).isEmpty = probs.isEmpty := by
  cases probs <;> rfl

theorem shiftRows_any_length (probs : List (List ℝ)) (c : Nat → ℝ) (N : Nat) :
    ((shiftRows probs c).any fun row => row.length != N) =
      (probs.any fun row => row.length != N) := by
  induction probs generalizing c with
  | nil => rfl
  | cons row rest ih =>
    simp only [shiftRows, List.any_cons, List.length_map]
    rw [ih]

theorem shiftRows_map_norm (probs : List (List ℝ)) (c : Nat → ℝ) :
    ((shiftRows probs c).map fun row => row.map (fun x => x - maxElem row)) =
      (probs.map fun row => row.map (fun x => x - maxElem row)) := by
  induction probs generalizing c with
  | nil => rfl
  | cons row rest ih =>
    simp only [shiftRows, List.map_cons]
    rw [normRow_map_add row (c 0), ih]

/-- Core shift-invariance fact: provided no entry equals the `LOG_ZERO`
sentinel before or after shifting, loading the shifted matrix produces
exactly the same result as loading the original one, because each row is
stored with its own maximum subtracted. -/
theorem setTimeEmiss_shift (hmm : HMM) (probs : List (List ℝ)) (c : Nat → ℝ)
    (hnz : ∀ row ∈ probs, ∀ x ∈ row, x ≠ LOG_ZERO)
    (hnz' : ∀ row ∈ shiftRows probs c, ∀ x ∈ row, x ≠ LOG_ZERO) :
    hmm.SetTimeEmissProbs (shiftRows probs c) = hmm.SetTimeEmissProbs probs := by
  have anyFalse : ∀ l : List (List ℝ), (∀ row ∈ l, ∀ x ∈ row, x ≠ LOG_ZERO) →
      (l.any fun row => row.any fun x => pdecide (x = LOG_ZERO)) = false := by
    intro l hl
    rw [List.any_eq_false]
    intro row hr
    rw [Bool.not_eq_true, List.any_eq_false]
    intro x hx
    simp [pdecide, hl row hr x hx]
  unfold HMM.SetTimeEmissProbs
  rw [shiftRows_isEmpty, shiftRows_any_length, anyFalse _ hnz, anyFalse _ hnz',
    shiftRows_map_norm]

/-- C4 (amended): adding a constant `c t` to every entry of row `t` of the
supplied time-emission matrix (no entry hitting the `LOG_ZERO` sentinel
before or after) leaves the loaded table bit-for-bit unchanged — because
`SetTimeEmissProbs` subtracts each row's maximum before storing — hence
`alpha` is unchanged (shifted by 0, not by the sum of the `c t`) and
re-running Baum-Welch from the same starting parameters yields identical
updated parameters. -/
theorem claim4_shift_invariance :
    ∀ (hmm : HMM) (probs : List (List ℝ)) (c : Nat → ℝ),
      (∀ row ∈ probs, ∀ x ∈ row, x ≠ LOG_ZERO) →
      (∀ row ∈ shiftRows probs c, ∀ x ∈ row, x ≠ LOG_ZERO) →
      hmm.SetTimeEmissProbs (shiftRows probs c) = hmm.SetTimeEmissProbs probs ∧
      ((hmm.SetTimeEmissProbs (shiftRows probs c)).map fun h => alpha h.to_WDAG) =
        ((hmm.SetTimeEmissProbs probs).map fun h => alpha h.to_WDAG) ∧
      ∀ fw bw : Nat → ℝ,
        ((hmm.SetTimeEmissProbs (shiftRows probs c)).bind
            fun h => h.AdjustProbsToBaumWelch h.to_WDAG fw bw) =
          ((hmm.SetTimeEmissProbs probs).bind
            fun h => h.AdjustProbsToBaumWelch h.to_WDAG fw bw) := by
  intro hmm probs c hnz hnz'
  have E := setTimeEmiss_shift hmm probs c hnz hnz'
  exact ⟨E, by rw [E], fun fw bw => by rw [E]⟩

/-- Witness for C4 (amended) at a concrete instance: the one-timepoint
continuous matrix `[[0, -1]]` shifted by 1000. -/
theorem claim4_witness :
    hmmC.SetTimeEmissProbs (shiftRows [[0, -1]] fun _ => 1000) =
      hmmC.SetTimeEmissProbs [[0, -1]] := by
  refine (claim4_shift_invariance hmmC [[0, -1]] (fun _ => 1000) ?_ ?_).1
  · intro row hr x hx
    rw [List.mem_singleton] at hr
    subst hr
    rcases List.mem_pair.mp hx with h | h <;> rw [h] <;> norm_num [LOG_ZERO]
  · intro row hr x hx
    simp only [shiftRows, List.map_cons, List.map_nil, List.mem_singleton] at hr
    subst hr
    rcases List.mem_pair.mp hx with h | h <;> rw [h] <;> norm_num [LOG_ZERO]

/-- The trellis log-likelihood obtained after loading a given
time-emission matrix into the concrete continuous model `hmmC`. -/
noncomputable def alphaLoaded (probs : List (List ℝ)) : ℝ :=
  alpha ((hmmC.SetTimeEmissProbs probs).getD hmmC).to_WDAG

/-- Counterexample to C4 as stated: shifting the supplied row by
`c = 1000` does NOT shift `alpha` by 1000 — the row-max normalisation
makes the loaded model, hence `alpha`, identical. -/
theorem claim4_counterexample :
    ¬ (alphaLoaded (shiftRows [[0, -1]] fun _ => 1000) =
        alphaLoaded [[0, -1]] + 1000) := by
  have E : hmmC.SetTimeEmissProbs (shiftRows [[0, -1]] fun _ => 1000) =
      hmmC.SetTimeEmissProbs [[0, -1]] := by
    refine setTimeEmiss_shift hmmC [[0, -1]] (fun _ => 1000) ?_ ?_
    · intro row hr x hx
      rw [List.mem_singleton] at hr
      subst hr
      rcases List.mem_pair.mp hx with h | h <;> rw [h] <;> norm_num [LOG_ZERO]
    · intro row hr x hx
      simp only [shiftRows, List.map_cons, List.map_nil, List.mem_singleton] at hr
      subst hr
      rcases List.mem_pair.mp hx with h | h <;> rw [h] <;> norm_num [LOG_ZERO]
  unfold alphaLoaded
  rw [E]
  intro h
  linarith

/-! ### Trellis structure: indexing lemmas for `to_WDAG` -/

theorem length_flatMap_const {α : Type} (f : Nat → List α) (L : Nat)
    (hf : ∀ t, (f t).length = L) :
    ∀ T, ((List.range T).flatMap f).length = L * T := by
  intro T
  induction T with
  | zero => rfl
  | succ S ih =>
    rw [List.range_succ, List.flatMap_append, List.length_append, ih]
    simp [hf S, Nat.mul_succ]

theorem getElem?_flatMap_const {α : Type} (f : Nat → List α) (L : Nat)
    (hf : ∀ t, (f t).length = L) :
    ∀ T t r, t < T → r < L → ((List.range T).flatMap f)[L * t + r]? = (f t)[r]? := by
  intro T
  induction T with
  | zero => intro t r ht _; exact absurd ht (Nat.not_lt_zero t)
  | succ S ih =>
    intro t r ht hr
    rw [List.range_succ, List.flatMap_append]
    by_cases h : t < S
    · have h1 : L * t + r < L * (t + 1) := by rw [Nat.mul_succ]; omega
      have h2 : L * (t + 1) ≤ L * S := Nat.mul_le_mul_left L h
      rw [List.getElem?_append, if_pos (by rw [length_flatMap_const f L hf S]; omega)]
      exact ih t r h hr
    · have ht' : t = S := by omega
      subst ht'
      rw [List.getElem?_append_right (by rw [length_flatMap_const f L hf t]; omega),
        length_flatMap_const f L hf t]
      have hidx : L * t + r - L * t = r := by omega
      rw [hidx]
      simp

/-- The two node layers added for timepoint `t` by the body of the main
loop of `HMM::to_WDAG`. -/
def HMM.layer (hmm : HMM) (t : Nat) : List WDAGNode :=
  (List.range hmm.N_states).map (fun i => hmm.nodeA t i) ++
    (List.range hmm.N_states).map (fun i => hmm.nodeB t i)

theorem layer_length (hmm : HMM) (t : Nat) :
    (hmm.layer t).length = 2 * hmm.N_states := by
  simp [HMM.layer, two_mul]

theorem to_WDAG_nodes_eq (hmm : HMM) :
    hmm.to_WDAG.nodes =
      ⟨[]⟩ :: ((List.range hmm.NTimepoints).flatMap hmm.layer ++
        [⟨(List.range hmm.N_states).map
          (fun i => ⟨bId hmm.N_states (hmm.NTimepoints - 1) i, .F, 0⟩)⟩]) := rfl

theorem to_WDAG_reqStart (hmm : HMM) : hmm.to_WDAG.reqStart = 0 := rfl

theorem to_WDAG_reqEnd (hmm : HMM) :
    hmm.to_WDAG.reqEnd = 1 + 2 * hmm.N_states * hmm.NTimepoints := rfl

/-- The trellis has exactly `2*N*T + 2` nodes (the `assert` at `HMM.cc`
line 264). -/
theorem to_WDAG_nodes_length (hmm : HMM) :
    hmm.to_WDAG.nodes.length = 2 * hmm.N_states * hmm.NTimepoints + 2 := by
  rw [to_WDAG_nodes_eq]
  simp [length_flatMap_const hmm.layer (2 * hmm.N_states) (layer_length hmm)
    hmm.NTimepoints]

theorem to_WDAG_start (hmm : HMM) : hmm.to_WDAG.nodes[0]? = some ⟨[]⟩ := by
  rw [to_WDAG_nodes_eq]
  simp

theorem to_WDAG_getA (hmm : HMM) (t i : Nat) (ht : t < hmm.NTimepoints)
    (hi : i < hmm.N_states) :
    hmm.to_WDAG.nodes[aId hmm.N_states t i]? = some (hmm.nodeA t i) := by
  have hN : 0 < hmm.N_states := by omega
  rw [to_WDAG_nodes_eq]
  have hidx : aId hmm.N_states t i = (2 * hmm.N_states * t + i) + 1 := by
    unfold aId; omega
  rw [hidx, List.getElem?_cons_succ]
  have h1 : 2 * hmm.N_states * t + i < 2 * hmm.N_states * (t + 1) := by
    rw [Nat.mul_succ]; omega
  have h2 : 2 * hmm.N_states * (t + 1) ≤ 2 * hmm.N_states * hmm.NTimepoints :=
    Nat.mul_le_mul_left _ ht
  rw [List.getElem?_append, if_pos (by
    rw [length_flatMap_const hmm.layer (2 * hmm.N_states) (layer_length hmm)]; omega)]
  rw [getElem?_flatMap_const hmm.layer (2 * hmm.N_states) (layer_length hmm)
    hmm.NTimepoints t i ht (by omega)]
  unfold HMM.layer
  rw [List.getElem?_append, if_pos (by simpa using hi)]
  rw [List.getElem?_map]
  simp [List.getElem?_range hi]

theorem to_WDAG_getB (hmm : HMM) (t i : Nat) (ht : t < hmm.NTimepoints)
    (hi : i < hmm.N_states) :
    hmm.to_WDAG.nodes[bId hmm.N_states t i]? = some (hmm.nodeB t i) := by
  rw [to_WDAG_nodes_eq]
  have hidx : bId hmm.N_states t i =
      (2 * hmm.N_states * t + (hmm.N_states + i)) + 1 := by
    unfold bId; omega
  rw [hidx, List.getElem?_cons_succ]
  have h1 : 2 * hmm.N_states * t + (hmm.N_states + i) <
      2 * hmm.N_states * (t + 1) := by rw [Nat.mul_succ]; omega
  have h2 : 2 * hmm.N_states * (t + 1) ≤ 2 * hmm.N_states * hmm.NTimepoints :=
    Nat.mul_le_mul_left _ ht
  rw [List.getElem?_append, if_pos (by
    rw [length_flatMap_const hmm.layer (2 * hmm.N_states) (layer_length hmm)]; omega)]
  rw [getElem?_flatMap_const hmm.layer (2 * hmm.N_states) (layer_length hmm)
    hmm.NTimepoints t (hmm.N_states + i) ht (by omega)]
  unfold HMM.layer
  rw [List.getElem?_append_right (by simp)]
  have hidx2 : hmm.N_states + i -
      ((List.range hmm.N_states).map (fun i => hmm.nodeA t i)).length = i := by
    simp
  rw [hidx2, List.getElem?_map]
  simp [List.getElem?_range hi]

theorem to_WDAG_getEnd (hmm : HMM) :
    hmm.to_WDAG.nodes[1 + 2 * hmm.N_states * hmm.NTimepoints]? =
      some ⟨(List.range hmm.N_states).map
        (fun i => ⟨bId hmm.N_states (hmm.NTimepoints - 1) i, .F, 0⟩)⟩ := by
  rw [to_WDAG_nodes_eq]
  have hidx : 1 + 2 * hmm.N_states * hmm.NTimepoints =
      (2 * hmm.N_states * hmm.NTimepoints) + 1 := by omega
  rw [hidx, List.getElem?_cons_succ]
  rw [List.getElem?_append_right (by
    rw [length_flatMap_const hmm.layer (2 * hmm.N_states) (layer_length hmm)])]
  rw [length_flatMap_const hmm.layer (2 * hmm.N_states) (layer_length hmm)]
  simp

/-! ### C1 -/

/-- C1: for an HMM with all required data loaded (`N` states, `T`
timepoints), `to_WDAG` builds a trellis of exactly `2*N*T + 2` nodes —
start node (id 0), per timepoint a layer `A_t` and a layer `B_t` of `N`
nodes, end node — whose edges are: `S i` from start to `A_0[i]` weighted
`init_probs[i]`; `T i_prev i` from `B_(t-1)[i_prev]` to `A_t[i]` weighted
`trans_probs[i_prev][i]` for `t >= 1`; `E i s` from `A_t[i]` to `B_t[i]`
weighted by the emission log-probability, with `s = observations[t]` if
discrete and `s = -1` if continuous; and weight-0 `F` edges from every
`B_(T-1)[i]` to the end node. -/
theorem claim1_trellis_structure (hmm : HMM) (hAll : hmm.HasAllData = true)
    (hN : 1 ≤ hmm.N_states) (hT : 1 ≤ hmm.NTimepoints) :
    hmm.to_WDAG.nodes.length = 2 * hmm.N_states * hmm.NTimepoints + 2 ∧
    hmm.to_WDAG.reqStart = 0 ∧
    hmm.to_WDAG.nodes[0]? = some ⟨[]⟩ ∧
    (∀ i, i < hmm.N_states →
      hmm.to_WDAG.nodes[aId hmm.N_states 0 i]? =
        some ⟨[⟨0, .S i, hmm.init_probs.getD i 0⟩]⟩) ∧
    (∀ t i, 1 ≤ t → t < hmm.NTimepoints → i < hmm.N_states →
      hmm.to_WDAG.nodes[aId hmm.N_states t i]? =
        some ⟨(List.range hmm.N_states).map fun i_prev =>
          ⟨bId hmm.N_states (t - 1) i_prev, .T i_prev i,
            (hmm.trans_probs.getD i_prev []).getD i 0⟩⟩) ∧
    (∀ t i, t < hmm.NTimepoints → i < hmm.N_states →
      hmm.to_WDAG.nodes[bId hmm.N_states t i]? =
        some ⟨[⟨aId hmm.N_states t i, .E i (hmm.emissObs t), hmm.emissProb t i⟩]⟩) ∧
    hmm.to_WDAG.reqEnd = 1 + 2 * hmm.N_states * hmm.NTimepoints ∧
    hmm.to_WDAG.nodes[1 + 2 * hmm.N_states * hmm.NTimepoints]? =
      some ⟨(List.range hmm.N_states).map fun i =>
        ⟨bId hmm.N_states (hmm.NTimepoints - 1) i, .F, 0⟩⟩ := by
  refine ⟨to_WDAG_nodes_length hmm, rfl, to_WDAG_start hmm, ?_, ?_, ?_, rfl,
    to_WDAG_getEnd hmm⟩
  · intro i hi
    rw [to_WDAG_getA hmm 0 i (by omega) hi]
    simp [HMM.nodeA]
  · intro t i h1 h2 hi
    rw [to_WDAG_getA hmm t i h2 hi]
    have hne : t ≠ 0 := by omega
    simp [HMM.nodeA, hne]
  · intro t i h2 hi
    rw [to_WDAG_getB hmm t i h2 hi]
    simp [HMM.nodeB]

/-- A fully loaded discrete HMM: 2 states, 2 symbols, observations
`[0, 1]` (so `T = 2`). -/
def hmmE : HMM :=
  ⟨2, 2, [0, 0], [[0, 0], [0, 0]], [[0, 0], [0, 0]], [0, 1], [], [],
   true, true, true, true, false, false, false⟩

/-- Witness for C1 at the loaded discrete model `hmmE`: the hypotheses
hold and the structure theorem yields the node count and one edge of each
kind. -/
theorem claim1_witness :
    hmmE.HasAllData = true ∧ 1 ≤ hmmE.N_states ∧ 1 ≤ hmmE.NTimepoints ∧
    hmmE.to_WDAG.nodes.length = 2 * hmmE.N_states * hmmE.NTimepoints + 2 ∧
    hmmE.to_WDAG.nodes[aId hmmE.N_states 0 0]? =
      some ⟨[⟨0, .S 0, hmmE.init_probs.getD 0 0⟩]⟩ ∧
    hmmE.to_WDAG.nodes[aId hmmE.N_states 1 1]? =
      some ⟨(List.range hmmE.N_states).map fun i_prev =>
        ⟨bId hmmE.N_states 0 i_prev, .T i_prev 1,
          (hmmE.trans_probs.getD i_prev []).getD 1 0⟩⟩ ∧
    hmmE.to_WDAG.nodes[bId hmmE.N_states 0 1]? =
      some ⟨[⟨aId hmmE.N_states 0 1, .E 1 (hmmE.emissObs 0), hmmE.emissProb 0 1⟩]⟩ ∧
    hmmE.to_WDAG.nodes[1 + 2 * hmmE.N_states * hmmE.NTimepoints]? =
      some ⟨(List.range hmmE.N_states).map fun i =>
        ⟨bId hmmE.N_states (hmmE.NTimepoints - 1) i, .F, 0⟩⟩ := by
  have C := claim1_trellis_structure hmmE rfl (by decide) (by decide)
  exact ⟨rfl, by decide, by decide, C.1, C.2.2.2.1 0 (by decide),
    C.2.2.2.2.1 1 1 (by decide) (by decide) (by decide),
    C.2.2.2.2.2.1 0 1 (by decide) (by decide), C.2.2.2.2.2.2.2⟩

/-! ### Projections of the Viterbi counting loop -/

theorem vitfold_states (disc : Bool) (l : List EdgeName) :
    ∀ acc : VitTally, (l.foldl (vitStep disc) acc).states = acc.states ++ pathStates l := by
  induction l with
  | nil => intro acc; simp [pathStates]
  | cons nm rest ih =>
    intro acc
    cases nm with
    | S i => simpa [vitStep, pathStates] using ih acc
    | T i j => simpa [vitStep, pathStates] using ih _
    | E i s =>
      rw [List.foldl_cons, ih]
      simp [vitStep, pathStates]
    | F => simpa [vitStep, pathStates] using ih acc

theorem vitfold_trans_counts (disc : Bool) (l : List EdgeName) :
    ∀ (acc : VitTally) (i j : Nat),
      (l.foldl (vitStep disc) acc).trans_counts i j =
        acc.trans_counts i j + l.countP (fun nm => nm == .T i j) := by
  induction l with
  | nil => intro acc i j; simp
  | cons nm rest ih =>
    intro acc i j
    rw [List.foldl_cons, ih, List.countP_cons]
    cases nm with
    | S a => simp [vitStep]
    | T a b =>
      by_cases h : i = a ∧ j = b
      · obtain ⟨rfl, rfl⟩ := h
        simp [vitStep]
        omega
      · have h' : ¬(a = i ∧ b = j) := fun hc => h ⟨hc.1.symm, hc.2.symm⟩
        simp [vitStep, h, h']
    | E a s => simp [vitStep]
    | F => simp [vitStep]

theorem vitfold_state_counts (disc : Bool) (l : List EdgeName) :
    ∀ (acc : VitTally) (i : Nat),
      (l.foldl (vitStep disc) acc).state_counts i =
        acc.state_counts i + (pathStates l).count i := by
  induction l with
  | nil => intro acc i; simp [pathStates]
  | cons nm rest ih =>
    intro acc i
    rw [List.foldl_cons, ih]
    cases nm with
    | S a => simp [vitStep, pathStates]
    | T a b => simp [vitStep, pathStates]
    | E a s =>
      by_cases h : i = a
      · subst h
        simp [vitStep, pathStates, List.count_cons]
        omega
      · have h' : ¬(a = i) := fun hc => h hc.symm
        simp [vitStep, pathStates, List.count_cons, h, h']
    | F => simp [vitStep, pathStates]

theorem vitfold_emiss_counts_true (l : List EdgeName) :
    ∀ (acc : VitTally) (i : Nat) (s : Int),
      (l.foldl (vitStep true) acc).emiss_counts i s =
        acc.emiss_counts i s + l.countP (fun nm => nm == .E i s) := by
  induction l with
  | nil => intro acc i s; simp
  | cons nm rest ih =>
    intro acc i s
    rw [List.foldl_cons, ih, List.countP_cons]
    cases nm with
    | S a => simp [vitStep]
    | T a b => simp [vitStep]
    | E a b =>
      by_cases h : i = a ∧ s = b
      · obtain ⟨rfl, rfl⟩ := h
        simp [vitStep]
        omega
      · have h' : ¬(a = i ∧ b = s) := fun hc => h ⟨hc.1.symm, hc.2.symm⟩
        simp [vitStep, h, h']
    | F => simp [vitStep]

theorem vitfold_emiss_counts_false (l : List EdgeName) :
    ∀ acc : VitTally, (l.foldl (vitStep false) acc).emiss_counts = acc.emiss_counts := by
  induction l with
  | nil => intro acc; rfl
  | cons nm rest ih =>
    intro acc
    rw [List.foldl_cons, ih]
    cases nm <;> rfl

theorem vitTally_states (disc : Bool) (l : List EdgeName) :
    (vitTally disc l).states = pathStates l := by
  unfold vitTally
  rw [vitfold_states]
  rfl

theorem vitTally_trans_counts (disc : Bool) (l : List EdgeName) (i j : Nat) :
    (vitTally disc l).trans_counts i j = l.countP (fun nm => nm == .T i j) := by
  unfold vitTally
  rw [vitfold_trans_counts]
  simp

theorem vitTally_state_counts (disc : Bool) (l : List EdgeName) (i : Nat) :
    (vitTally disc l).state_counts i = (pathStates l).count i := by
  unfold vitTally
  rw [vitfold_state_counts]
  simp

theorem vitTally_emiss_counts_true (l : List EdgeName) (i : Nat) (s : Int) :
    (vitTally true l).emiss_counts i s = l.countP (fun nm => nm == .E i s) := by
  unfold vitTally
  rw [vitfold_emiss_counts_true]
  simp

/-! ### Projections of the Baum-Welch accumulation loop -/

/-- Is this an emission edge name? -/
def isEName : EdgeName → Bool
  | .E _ _ => true
  | _ => false

/-- Is this an emission edge name with emitting state `i`? -/
def isEstate (i : Nat) : EdgeName → Bool
  | .E a _ => a == i
  | _ => false

/-- The posterior log-mass of an edge, written in the spec's order
`fw[parent] + weight + bw[child]` (the source computes the commuted
`parent._fw_prob + child._bw_prob + edge_weight`). -/
noncomputable def posteriorOf (fw bw : Nat → ℝ) (q : Nat × WEdge) : ℝ :=
  fw q.2.parent + q.2.weight + bw q.1

theorem bwfold_init_probs (disc : Bool) (fw bw : Nat → ℝ) (l : List (Nat × WEdge)) :
    ∀ (acc : BWTally) (j : Nat),
      (l.foldl (bwStep disc fw bw) acc).new_init_probs j =
        ((l.filter (fun q => q.2.name == .S j)).map (posteriorOf fw bw)).foldl
          (fun _ p => p) (acc.new_init_probs j) := by
  induction l with
  | nil => intro acc j; rfl
  | cons q rest ih =>
    intro acc j
    obtain ⟨c, e⟩ := q
    rw [List.foldl_cons, ih]
    cases hname : e.name with
    | S a =>
      by_cases h : j = a
      · subst h
        simp [bwStep, hname, List.filter_cons, posteriorOf]
        ring_nf
      · have h' : ¬(a = j) := fun hc => h hc.symm
        simp [bwStep, hname, List.filter_cons, h, h']
    | T a b => simp [bwStep, hname, List.filter_cons]
    | E a s => simp [bwStep, hname, List.filter_cons]
    | F => simp [bwStep, hname, List.filter_cons]

theorem bwfold_trans_probs (disc : Bool) (fw bw : Nat → ℝ) (l : List (Nat × WEdge)) :
    ∀ (acc : BWTally) (i j : Nat),
      (l.foldl (bwStep disc fw bw) acc).new_trans_probs i j =
        ((l.filter (fun q => q.2.name == .T i j)).map (posteriorOf fw bw)).foldl
          lnsum (acc.new_trans_probs i j) := by
  induction l with
  | nil => intro acc i j; rfl
  | cons q rest ih =>
    intro acc i j
    obtain ⟨c, e⟩ := q
    rw [List.foldl_cons, ih]
    cases hname : e.name with
    | S a => simp [bwStep, hname, List.filter_cons]
    | T a b =>
      by_cases h : i = a ∧ j = b
      · obtain ⟨rfl, rfl⟩ := h
        have hp : fw e.parent + bw c + e.weight = posteriorOf fw bw (c, e) := by
          unfold posteriorOf
          ring
        simp [bwStep, hname, List.filter_cons, hp]
      · have h' : ¬(a = i ∧ b = j) := fun hc => h ⟨hc.1.symm, hc.2.symm⟩
        simp [bwStep, hname, List.filter_cons, h, h']
    | E a s => simp [bwStep, hname, List.filter_cons]
    | F => simp [bwStep, hname, List.filter_cons]

theorem bwfold_state_freqs (disc : Bool) (fw bw : Nat → ℝ) (l : List (Nat × WEdge)) :
    ∀ (acc : BWTally) (i : Nat),
      (l.foldl (bwStep disc fw bw) acc).new_state_freqs i =
        ((l.filter (fun q => isEstate i q.2.name)).map (posteriorOf fw bw)).foldl
          lnsum (acc.new_state_freqs i) := by
  induction l with
  | nil => intro acc i; rfl
  | cons q rest ih =>
    intro acc i
    obtain ⟨c, e⟩ := q
    rw [List.foldl_cons, ih]
    cases hname : e.name with
    | S a => simp [bwStep, hname, List.filter_cons, isEstate]
    | T a b => simp [bwStep, hname, List.filter_cons, isEstate]
    | E a s =>
      by_cases h : i = a
      · subst h
        have hp : fw e.parent + bw c + e.weight = posteriorOf fw bw (c, e) := by
          unfold posteriorOf
          ring
        simp [bwStep, hname, List.filter_cons, isEstate, hp]
      · have h' : ¬(a = i) := fun hc => h hc.symm
        simp [bwStep, hname, List.filter_cons, isEstate, h, h']
    | F => simp [bwStep, hname, List.filter_cons, isEstate]

theorem bwfold_emiss_probs_true (fw bw : Nat → ℝ) (l : List (Nat × WEdge)) :
    ∀ (acc : BWTally) (i : Nat) (s : Int),
      (l.foldl (bwStep true fw bw) acc).new_emiss_probs i s =
        ((l.filter (fun q => q.2.name == .E i s)).map (posteriorOf fw bw)).foldl
          lnsum (acc.new_emiss_probs i s) := by
  induction l with
  | nil => intro acc i s; rfl
  | cons q rest ih =>
    intro acc i s
    obtain ⟨c, e⟩ := q
    rw [List.foldl_cons, ih]
    cases hname : e.name with
    | S a => simp [bwStep, hname, List.filter_cons]
    | T a b => simp [bwStep, hname, List.filter_cons]
    | E a b =>
      by_cases h : i = a ∧ s = b
      · obtain ⟨rfl, rfl⟩ := h
        have hp : fw e.parent + bw c + e.weight = posteriorOf fw bw (c, e) := by
          unfold posteriorOf
          ring
        simp [bwStep, hname, List.filter_cons, hp]
      · have h' : ¬(a = i ∧ b = s) := fun hc => h ⟨hc.1.symm, hc.2.symm⟩
        simp [bwStep, hname, List.filter_cons, h, h']
    | F => simp [bwStep, hname, List.filter_cons]

theorem bwfold_emiss_probs_false (fw bw : Nat → ℝ) (l : List (Nat × WEdge)) :
    ∀ acc : BWTally, (l.foldl (bwStep false fw bw) acc).new_emiss_probs =
      acc.new_emiss_probs := by
  induction l with
  | nil => intro acc; rfl
  | cons q rest ih =>
    intro acc
    obtain ⟨c, e⟩ := q
    rw [List.foldl_cons, ih]
    cases hname : e.name <;> simp [bwStep, hname]

theorem bwfold_n_emissions (disc : Bool) (fw bw : Nat → ℝ) (l : List (Nat × WEdge)) :
    ∀ acc : BWTally, (l.foldl (bwStep disc fw bw) acc).n_emissions =
      acc.n_emissions + l.countP (fun q => isEName q.2.name) := by
  induction l with
  | nil => intro acc; simp
  | cons q rest ih =>
    intro acc
    obtain ⟨c, e⟩ := q
    rw [List.foldl_cons, ih, List.countP_cons]
    cases hname : e.name with
    | S a => simp [bwStep, hname, isEName]
    | T a b => simp [bwStep, hname, isEName]
    | E a s =>
      simp [bwStep, hname, isEName]
      omega
    | F => simp [bwStep, hname, isEName]

theorem bwTallyOf_init_probs (hmm : HMM) (g : WDAG) (fw bw : Nat → ℝ) (j : Nat) :
    (bwTallyOf hmm g fw bw).new_init_probs j =
      (((wdagEdges g).filter (fun q => q.2.name == .S j)).map (posteriorOf fw bw)).foldl
        (fun _ p => p) LOG_ZERO := by
  unfold bwTallyOf
  rw [bwfold_init_probs]

theorem bwTallyOf_trans_probs (hmm : HMM) (g : WDAG) (fw bw : Nat → ℝ) (i j : Nat) :
    (bwTallyOf hmm g fw bw).new_trans_probs i j =
      (((wdagEdges g).filter (fun q => q.2.name == .T i j)).map (posteriorOf fw bw)).foldl
        lnsum LOG_ZERO := by
  unfold bwTallyOf
  rw [bwfold_trans_probs]

theorem bwTallyOf_state_freqs (hmm : HMM) (g : WDAG) (fw bw : Nat → ℝ) (i : Nat) :
    (bwTallyOf hmm g fw bw).new_state_freqs i =
      (((wdagEdges g).filter (fun q => isEstate i q.2.name)).map (posteriorOf fw bw)).foldl
        lnsum LOG_ZERO := by
  unfold bwTallyOf
  rw [bwfold_state_freqs]

theorem bwTallyOf_emiss_probs (hmm : HMM) (g : WDAG) (fw bw : Nat → ℝ) (i : Nat) (s : Int) :
    (bwTallyOf hmm g fw bw).new_emiss_probs i s =
      if hmm.is_discrete_HMM then
        (((wdagEdges g).filter (fun q => q.2.name == .E i s)).map (posteriorOf fw bw)).foldl
          lnsum LOG_ZERO
      else LOG_ZERO := by
  unfold bwTallyOf
  cases hd : hmm.is_discrete_HMM with
  | false =>
    rw [bwfold_emiss_probs_false]
    simp
  | true =>
    rw [bwfold_emiss_probs_true]
    simp

theorem bwTallyOf_n_emissions (hmm : HMM) (g : WDAG) (fw bw : Nat → ℝ) :
    (bwTallyOf hmm g fw bw).n_emissions =
      (wdagEdges g).countP (fun q => isEName q.2.name) := by
  unfold bwTallyOf
  rw [bwfold_n_emissions]
  simp

/-! ### Counting the emission edges of the trellis -/

theorem countP_wdagEdgesAux (p : WEdge → Bool) :
    ∀ (l : List WDAGNode) (i : Nat),
      (wdagEdgesAux i l).countP (fun q => p q.2) =
        (l.map (fun nd => nd.inEdges.countP p)).sum := by
  intro l
  induction l with
  | nil => intro i; rfl
  | cons nd rest ih =>
    intro i
    rw [wdagEdgesAux, List.countP_append, List.countP_map, List.map_cons, List.sum_cons,
      ih (i + 1)]
    rfl

theorem sum_map_flatMap_range {α : Type} (f : Nat → List α) (g : α → Nat) :
    ∀ T, (((List.range T).flatMap f).map g).sum =
      ((List.range T).map (fun t => ((f t).map g).sum)).sum := by
  intro T
  induction T with
  | zero => rfl
  | succ S ih =>
    rw [List.range_succ, List.flatMap_append, List.map_append, List.sum_append, ih,
      List.map_append, List.sum_append]
    simp

/-- Each timepoint layer contributes exactly `N` emission edges: the `N`
layer-B nodes carry one each, the layer-A nodes none. -/
theorem layer_emiss_count (hmm : HMM) (t : Nat) :
    ((hmm.layer t).map (fun nd => nd.inEdges.countP (fun e => isEName e.name))).sum =
      hmm.N_states := by
  unfold HMM.layer
  rw [List.map_append, List.sum_append, List.map_map, List.map_map]
  have hA : ((List.range hmm.N_states).map
      ((fun nd => nd.inEdges.countP (fun e => isEName e.name)) ∘
        fun i => hmm.nodeA t i)).sum = 0 := by
    apply List.sum_eq_zero
    intro x hx
    rw [List.mem_map] at hx
    obtain ⟨i, _, rfl⟩ := hx
    by_cases h : t = 0
    · subst h
      simp [HMM.nodeA, isEName]
    · simp [HMM.nodeA, h, List.countP_map, Function.comp, isEName]
  have hB : ((List.range hmm.N_states).map
      ((fun nd => nd.inEdges.countP (fun e => isEName e.name)) ∘
        fun i => hmm.nodeB t i)).sum = hmm.N_states := by
    have hrep : (List.range hmm.N_states).map
        ((fun nd => nd.inEdges.countP (fun e => isEName e.name)) ∘
          fun i => hmm.nodeB t i) = List.replicate hmm.N_states 1 := by
      rw [List.eq_replicate_iff]
      constructor
      · simp
      · intro b hb
        rw [List.mem_map] at hb
        obtain ⟨i, _, rfl⟩ := hb
        simp [HMM.nodeB, isEName]
    rw [hrep, List.sum_replicate]
    simp
  rw [hA, hB]
  simp

/-- The trellis contains exactly one emission edge per state per timepoint
(`N*T` in total). -/
theorem to_WDAG_emiss_count (hmm : HMM) :
    (wdagEdges hmm.to_WDAG).countP (fun q => isEName q.2.name) =
      hmm.N_states * hmm.NTimepoints := by
  unfold wdagEdges
  rw [to_WDAG_nodes_eq, countP_wdagEdgesAux (fun e => isEName e.name) _ 0,
    List.map_cons, List.map_append, List.sum_cons, List.sum_append,
    sum_map_flatMap_range]
  have hmid : (List.range hmm.NTimepoints).map
      (fun t => ((hmm.layer t).map
        (fun nd => nd.inEdges.countP (fun e => isEName e.name))).sum) =
      List.replicate hmm.NTimepoints hmm.N_states := by
    rw [List.eq_replicate_iff]
    constructor
    · simp
    · intro b hb
      rw [List.mem_map] at hb
      obtain ⟨t, _, rfl⟩ := hb
      exact layer_emiss_count hmm t
  rw [hmid, List.sum_replicate]
  simp [List.countP_map, Function.comp, isEName, Nat.mul_comm]

/-- The edge loop of `AdjustProbsToBaumWelch`, run on the trellis of the
same HMM, always ends with `n_emissions = NTimepoints * N_states`, so the
assert at `HMM.cc` line 440 passes and the call returns a result. -/
theorem adjustBW_on_trellis_isSome (hmm : HMM) (fw bw : Nat → ℝ) :
    (hmm.AdjustProbsToBaumWelch hmm.to_WDAG fw bw).isSome = true := by
  have hc : (bwTallyOf hmm hmm.to_WDAG fw bw).n_emissions =
      hmm.NTimepoints * hmm.N_states := by
    rw [bwTallyOf_n_emissions, to_WDAG_emiss_count, Nat.mul_comm]
  simp only [HMM.AdjustProbsToBaumWelch, hc]
  simp

/-! ### C8 -/

/-- C8: on the trellis built by `to_WDAG`, the emission counter bumped
once per `E` edge ends at exactly `N*T`, so the
`assert( n_emissions == NTimepoints() * _N_states )` in
`AdjustProbsToBaumWelch` never fails and the call always produces a
result. -/
theorem claim8_emission_counter_invariant (hmm : HMM) (fw bw : Nat → ℝ) :
    (bwTallyOf hmm hmm.to_WDAG fw bw).n_emissions =
      hmm.N_states * hmm.NTimepoints ∧
    (hmm.AdjustProbsToBaumWelch hmm.to_WDAG fw bw).isSome = true := by
  constructor
  · rw [bwTallyOf_n_emissions, to_WDAG_emiss_count]
  · exact adjustBW_on_trellis_isSome hmm fw bw

/-! ### C5 counterexample -/

/-- The discrete model `hmmD` after loading the out-of-range observation
list `[5]`. -/
def hmmD5 : HMM := { hmmD with observations := [5], has_observations := true }

/-- Counterexample to C5 as stated: with `n_symbols = 2`, loading the
out-of-range observation vector `[5]` succeeds (no error is raised), and
Baum-Welch re-estimation on the resulting trellis also proceeds. -/
theorem claim5_counterexample :
    hmmD.N_symbols = 2 ∧
    hmmD.SetObservations [5] = some hmmD5 ∧
    (hmmD5.AdjustProbsToBaumWelch hmmD5.to_WDAG (fun _ => 0) (fun _ => 0)).isSome
      = true :=
  ⟨rfl, rfl, adjustBW_on_trellis_isSome hmmD5 _ _⟩

/-! ### Normalisation step of Baum-Welch -/

/-- `lnsum` total of the accumulated initiation masses
(`HMM.cc` lines 457-459). -/
noncomputable def initDenom (hmm : HMM) (g : WDAG) (fw bw : Nat → ℝ) : ℝ :=
  (List.range hmm.N_states).foldl
    (fun d j => lnsum d ((bwTallyOf hmm g fw bw).new_init_probs j)) LOG_ZERO

/-- `lnsum` total of row `i` of the accumulated transition masses
(`HMM.cc` lines 470-472). -/
noncomputable def transDenom (hmm : HMM) (g : WDAG) (fw bw : Nat → ℝ) (i : Nat) : ℝ :=
  (List.range hmm.N_states).foldl
    (fun d j => lnsum d ((bwTallyOf hmm g fw bw).new_trans_probs i j)) LOG_ZERO

/-- `lnsum` total of the accumulated state masses
(`HMM.cc` lines 447-449). -/
noncomputable def freqDenom (hmm : HMM) (g : WDAG) (fw bw : Nat → ℝ) : ℝ :=
  (List.range hmm.N_states).foldl
    (fun d j => lnsum d ((bwTallyOf hmm g fw bw).new_state_freqs j)) LOG_ZERO

/-- `lnsum` total of row `i` of the accumulated emission masses
(`HMM.cc` lines 485-487). -/
noncomputable def emissDenom (hmm : HMM) (g : WDAG) (fw bw : Nat → ℝ) (i : Nat) : ℝ :=
  (List.range hmm.N_symbols).foldl
    (fun d j => lnsum d ((bwTallyOf hmm g fw bw).new_emiss_probs i (Int.ofNat j))) LOG_ZERO

/-- Whenever `AdjustProbsToBaumWelch` returns, the stored `init_probs` are
the accumulated masses normalised by their `lnsum` total. -/
theorem adjustBW_init_map (hmm : HMM) (g : WDAG) (fw bw : Nat → ℝ) :
    ((hmm.AdjustProbsToBaumWelch g fw bw).map fun out => out.1.init_probs) =
      ((hmm.AdjustProbsToBaumWelch g fw bw).map fun _ =>
        (List.range hmm.N_states).map fun j =>
          (bwTallyOf hmm g fw bw).new_init_probs j - initDenom hmm g fw bw) := by
  unfold initDenom
  simp only [HMM.AdjustProbsToBaumWelch]
  split
  · rfl
  · simp

/-! ### C2 -/

/-- C2: in Baum-Welch re-estimation, every edge contributes the posterior
log-mass `p = fw[parent] + weight + bw[child]`; the `S j` edges assign `p`
to `new_init_probs[j]` (last assignment wins, starting from `LOG_ZERO`);
`T i j` edges, and for discrete HMMs `E i s` edges, `lnsum`-accumulate `p`
into tables initialised to `LOG_ZERO` (`E` edges always accumulate the
state-mass table); each table is then normalised by subtracting its
`lnsum` total — `Z_init` for `init_probs`, `Z_i` per source state for
`trans_probs` and discrete `symbol_emiss_probs` — and `state_freqs[j]`
becomes the real-valued `exp(new_state_freqs[j] - lnsum total)`. -/
theorem claim2_baum_welch_reestimation (hmm : HMM) (g : WDAG) (fw bw : Nat → ℝ) :
    (∀ j, (bwTallyOf hmm g fw bw).new_init_probs j =
      (((wdagEdges g).filter (fun q => q.2.name == .S j)).map (posteriorOf fw bw)).foldl
        (fun _ p => p) LOG_ZERO) ∧
    (∀ i j, (bwTallyOf hmm g fw bw).new_trans_probs i j =
      (((wdagEdges g).filter (fun q => q.2.name == .T i j)).map (posteriorOf fw bw)).foldl
        lnsum LOG_ZERO) ∧
    (∀ i s, (bwTallyOf hmm g fw bw).new_emiss_probs i s =
      if hmm.is_discrete_HMM then
        (((wdagEdges g).filter (fun q => q.2.name == .E i s)).map (posteriorOf fw bw)).foldl
          lnsum LOG_ZERO
      else LOG_ZERO) ∧
    (∀ i, (bwTallyOf hmm g fw bw).new_state_freqs i =
      (((wdagEdges g).filter (fun q => isEstate i q.2.name)).map (posteriorOf fw bw)).foldl
        lnsum LOG_ZERO) ∧
    ((hmm.AdjustProbsToBaumWelch g fw bw).map fun out => out.1.init_probs) =
      ((hmm.AdjustProbsToBaumWelch g fw bw).map fun _ =>
        (List.range hmm.N_states).map fun j =>
          (bwTallyOf hmm g fw bw).new_init_probs j - initDenom hmm g fw bw) ∧
    ((hmm.AdjustProbsToBaumWelch g fw bw).map fun out => out.1.trans_probs) =
      ((hmm.AdjustProbsToBaumWelch g fw bw).map fun _ =>
        (List.range hmm.N_states).map fun i =>
          (List.range hmm.N_states).map fun j =>
            (bwTallyOf hmm g fw bw).new_trans_probs i j - transDenom hmm g fw bw i) ∧
    ((hmm.AdjustProbsToBaumWelch g fw bw).map fun out => out.1.state_freqs) =
      ((hmm.AdjustProbsToBaumWelch g fw bw).map fun _ =>
        (List.range hmm.N_states).map fun j =>
          Real.exp ((bwTallyOf hmm g fw bw).new_state_freqs j -
            freqDenom hmm g fw bw)) ∧
    ((hmm.AdjustProbsToBaumWelch g fw bw).map fun out => out.1.symbol_emiss_probs) =
      ((hmm.AdjustProbsToBaumWelch g fw bw).map fun _ =>
        if hmm.is_discrete_HMM then
          (List.range hmm.N_states).map fun i =>
            (List.range hmm.N_symbols).map fun j =>
              (bwTallyOf hmm g fw bw).new_emiss_probs i (Int.ofNat j) -
                emissDenom hmm g fw bw i
        else hmm.symbol_emiss_probs) := by
  refine ⟨bwTallyOf_init_probs hmm g fw bw, bwTallyOf_trans_probs hmm g fw bw,
    bwTallyOf_emiss_probs hmm g fw bw, bwTallyOf_state_freqs hmm g fw bw,
    adjustBW_init_map hmm g fw bw, ?_, ?_, ?_⟩
  · unfold transDenom
    simp only [HMM.AdjustProbsToBaumWelch]
    split
    · rfl
    · simp
  · unfold freqDenom
    simp only [HMM.AdjustProbsToBaumWelch]
    split
    · rfl
    · simp
  · unfold emissDenom
    simp only [HMM.AdjustProbsToBaumWelch]
    split
    · rfl
    · simp

/-! ### C7 -/

/-- C7: Viterbi re-estimation never modifies `init_probs` — whenever
`AdjustProbsToViterbi` returns, the stored initial-state table is
bit-for-bit the one it started with — while Baum-Welch re-estimation
always overwrites it (with the normalised accumulated posteriors). -/
theorem claim7_viterbi_preserves_init (hmm : HMM) (path : List EdgeName)
    (g : WDAG) (fw bw : Nat → ℝ) :
    ((hmm.AdjustProbsToViterbi path).map fun out => out.1.init_probs) =
      ((hmm.AdjustProbsToViterbi path).map fun _ => hmm.init_probs) ∧
    ((hmm.AdjustProbsToBaumWelch g fw bw).map fun out => out.1.init_probs) =
      ((hmm.AdjustProbsToBaumWelch g fw bw).map fun _ =>
        (List.range hmm.N_states).map fun j =>
          (bwTallyOf hmm g fw bw).new_init_probs j - initDenom hmm g fw bw) := by
  constructor
  · simp only [HMM.AdjustProbsToViterbi]
    split
    · rfl
    split
    · rfl
    · simp
  · exact adjustBW_init_map hmm g fw bw

/-! ### C3 -/

/-- C3: in Viterbi re-estimation, whenever `AdjustProbsToViterbi` returns,
row `i` of the stored transition table is the uniform pseudocount row
`log(1/N)` if the best path contains no transition out of `i` (row count
total 0), and `log(trans_counts[i][j] / total_i)` otherwise (`log 0` —
IEEE `-inf`, the junk value `Real.log 0` in this model — for unseen
pairs); discrete symbol emissions are updated identically with an
`N_symbols` uniform fallback. -/
theorem claim3_viterbi_pseudocount_fallback (hmm : HMM) (path : List EdgeName) :
    ((hmm.AdjustProbsToViterbi path).map fun out => out.1.trans_probs) =
      ((hmm.AdjustProbsToViterbi path).map fun _ =>
        (List.range hmm.N_states).map fun i =>
          (List.range hmm.N_states).map fun j =>
            if ((List.range hmm.N_states).map fun j' =>
                path.countP (fun nm => nm == .T i j')).sum = 0 then
              Real.log (1 / (hmm.N_states : ℝ))
            else
              Real.log ((path.countP (fun nm => nm == .T i j) : ℝ) /
                (((List.range hmm.N_states).map fun j' =>
                  path.countP (fun nm => nm == .T i j')).sum : ℝ))) ∧
    ((hmm.AdjustProbsToViterbi path).map fun out => out.1.symbol_emiss_probs) =
      ((hmm.AdjustProbsToViterbi path).map fun _ =>
        if hmm.is_discrete_HMM then
          (List.range hmm.N_states).map fun i =>
            (List.range hmm.N_symbols).map fun j =>
              if ((List.range hmm.N_symbols).map fun j' =>
                  path.countP (fun nm => nm == .E i (Int.ofNat j'))).sum = 0 then
                Real.log (1 / (hmm.N_symbols : ℝ))
              else
                Real.log ((path.countP (fun nm => nm == .E i (Int.ofNat j)) : ℝ) /
                  (((List.range hmm.N_symbols).map fun j' =>
                    path.countP (fun nm => nm == .E i (Int.ofNat j'))).sum : ℝ))
        else hmm.symbol_emiss_probs) := by
  constructor
  · simp only [HMM.AdjustProbsToViterbi]
    split
    · rfl
    split
    · rfl
    · simp [vitTally_trans_counts, one_div, Real.log_inv]
  · simp only [HMM.AdjustProbsToViterbi]
    split
    · rfl
    split
    · rfl
    · cases hd : hmm.is_discrete_HMM with
      | false => simp [hd]
      | true =>
        have htab : ∀ (i : Nat) (s : Int),
            (vitTally true path).emiss_counts i s =
              path.countP (fun nm => nm == .E i s) :=
          fun i s => vitTally_emiss_counts_true path i s
        rw [Option.map_some', Option.map_some', Option.some.injEq]
        simp only [hd, htab, one_div, Real.log_inv, if_true]

/-! ### Node id arithmetic -/

theorem mulAdd_inj (L t r t' r' : Nat) (hr : r < L) (hr' : r' < L)
    (h : L * t + r = L * t' + r') : t = t' ∧ r = r' := by
  have hL : 0 < L := Nat.lt_of_le_of_lt (Nat.zero_le r) hr
  have h1 : (L * t + r) / L = t := by
    rw [Nat.mul_add_div hL, Nat.div_eq_of_lt hr]
    omega
  have h2 : (L * t' + r') / L = t' := by
    rw [Nat.mul_add_div hL, Nat.div_eq_of_lt hr']
    omega
  have ht : t = t' := by rw [← h1, ← h2, h]
  subst ht
  exact ⟨rfl, by omega⟩

theorem aId_ne_zero (N t i : Nat) : aId N t i ≠ 0 := by unfold aId; omega

theorem bId_ne_zero (N t i : Nat) : bId N t i ≠ 0 := by unfold bId; omega

theorem aId_inj (N t i t' i' : Nat) (hi : i < N) (hi' : i' < N)
    (h : aId N t i = aId N t' i') : t = t' ∧ i = i' := by
  unfold aId at h
  exact mulAdd_inj (2 * N) t i t' i' (by omega) (by omega) (by omega)

theorem bId_inj (N t i t' i' : Nat) (hi : i < N) (hi' : i' < N)
    (h : bId N t i = bId N t' i') : t = t' ∧ i = i' := by
  unfold bId at h
  have h2 := mulAdd_inj (2 * N) t (N + i) t' (N + i') (by omega) (by omega) (by omega)
  omega

theorem aId_ne_bId (N t i t' i' : Nat) (hi : i < N) (hi' : i' < N) :
    aId N t i ≠ bId N t' i' := by
  intro h
  unfold aId bId at h
  have h2 := mulAdd_inj (2 * N) t i t' (N + i') (by omega) (by omega) (by omega)
  omega

theorem aId_lt_end (N t i T : Nat) (ht : t < T) (hi : i < N) :
    aId N t i < 1 + 2 * N * T := by
  unfold aId
  have h1 : 2 * N * t + i < 2 * N * (t + 1) := by rw [Nat.mul_succ]; omega
  have h2 : 2 * N * (t + 1) ≤ 2 * N * T := Nat.mul_le_mul_left _ ht
  omega

theorem bId_lt_end (N t i T : Nat) (ht : t < T) (hi : i < N) :
    bId N t i < 1 + 2 * N * T := by
  unfold bId
  have h1 : 2 * N * t + N + i < 2 * N * (t + 1) := by rw [Nat.mul_succ]; omega
  have h2 : 2 * N * (t + 1) ≤ 2 * N * T := Nat.mul_le_mul_left _ ht
  omega

/-- Every node id of the trellis is the start node, a layer-A node, a
layer-B node, or the end node. -/
theorem trellis_node_cases (hmm : HMM) (v : Nat) (hv : v < hmm.to_WDAG.nodes.length) :
    v = 0 ∨
    (∃ t i, t < hmm.NTimepoints ∧ i < hmm.N_states ∧ v = aId hmm.N_states t i) ∨
    (∃ t i, t < hmm.NTimepoints ∧ i < hmm.N_states ∧ v = bId hmm.N_states t i) ∨
    v = 1 + 2 * hmm.N_states * hmm.NTimepoints := by
  rw [to_WDAG_nodes_length] at hv
  rcases Nat.eq_zero_or_pos v with h0 | hpos
  · exact Or.inl h0
  by_cases hend : v = 1 + 2 * hmm.N_states * hmm.NTimepoints
  · exact Or.inr (Or.inr (Or.inr hend))
  have hk : v - 1 < 2 * hmm.N_states * hmm.NTimepoints := by omega
  have hNpos : 0 < hmm.N_states := by
    rcases Nat.eq_zero_or_pos hmm.N_states with h | h
    · rw [h] at hk; omega
    · exact h
  have hdm : 2 * hmm.N_states * ((v - 1) / (2 * hmm.N_states)) +
      (v - 1) % (2 * hmm.N_states) = v - 1 := Nat.div_add_mod _ _
  have hmod : (v - 1) % (2 * hmm.N_states) < 2 * hmm.N_states :=
    Nat.mod_lt _ (by omega)
  have htlt : (v - 1) / (2 * hmm.N_states) < hmm.NTimepoints := by
    by_contra hge
    push_neg at hge
    have h2 : 2 * hmm.N_states * hmm.NTimepoints ≤
        2 * hmm.N_states * ((v - 1) / (2 * hmm.N_states)) :=
      Nat.mul_le_mul_left _ hge
    omega
  by_cases hcase : (v - 1) % (2 * hmm.N_states) < hmm.N_states
  · refine Or.inr (Or.inl ⟨(v - 1) / (2 * hmm.N_states),
      (v - 1) % (2 * hmm.N_states), htlt, hcase, ?_⟩)
    unfold aId
    omega
  · refine Or.inr (Or.inr (Or.inl ⟨(v - 1) / (2 * hmm.N_states),
      (v - 1) % (2 * hmm.N_states) - hmm.N_states, htlt, by omega, ?_⟩))
    unfold bId
    omega

/-! ### Node lookups through `getD` -/

theorem to_WDAG_getD_start (hmm : HMM) :
    hmm.to_WDAG.nodes.getD 0 default = ⟨[]⟩ := by
  rw [List.getD_eq_getElem?_getD, to_WDAG_start]
  rfl

theorem to_WDAG_getD_A (hmm : HMM) (t i : Nat) (ht : t < hmm.NTimepoints)
    (hi : i < hmm.N_states) :
    hmm.to_WDAG.nodes.getD (aId hmm.N_states t i) default = hmm.nodeA t i := by
  rw [List.getD_eq_getElem?_getD, to_WDAG_getA hmm t i ht hi]
  rfl

theorem to_WDAG_getD_B (hmm : HMM) (t i : Nat) (ht : t < hmm.NTimepoints)
    (hi : i < hmm.N_states) :
    hmm.to_WDAG.nodes.getD (bId hmm.N_states t i) default = hmm.nodeB t i := by
  rw [List.getD_eq_getElem?_getD, to_WDAG_getB hmm t i ht hi]
  rfl

theorem to_WDAG_getD_end (hmm : HMM) :
    hmm.to_WDAG.nodes.getD (1 + 2 * hmm.N_states * hmm.NTimepoints) default =
      ⟨(List.range hmm.N_states).map
        (fun i => ⟨bId hmm.N_states (hmm.NTimepoints - 1) i, .F, 0⟩)⟩ := by
  rw [List.getD_eq_getElem?_getD, to_WDAG_getEnd]
  rfl

/-! ### `pathStates` over single names -/

theorem pathStates_nil : pathStates [] = [] := rfl

theorem pathStates_append (xs ys : List EdgeName) :
    pathStates (xs ++ ys) = pathStates xs ++ pathStates ys :=
  List.filterMap_append xs ys _

theorem pathStates_single_S (i : Nat) : pathStates [.S i] = [] := rfl

theorem pathStates_single_T (i j : Nat) : pathStates [.T i j] = [] := rfl

theorem pathStates_single_E (i : Nat) (s : Int) : pathStates [.E i s] = [i] := rfl

theorem pathStates_single_F : pathStates [.F] = [] := rfl

/-- Invariant of every start-anchored walk of the trellis: a walk ending
at `A_t[i]` has passed `t` emission edges, one ending at `B_t[i]` has
passed `t + 1`, and one ending at the end node has passed exactly `T`;
every recorded emitting state is a valid state id. -/
theorem trellisPath_inv (hmm : HMM) (hN : 1 ≤ hmm.N_states) :
    ∀ (v : Nat) (names : List EdgeName), IsPath hmm.to_WDAG v names →
      (v = 0 ∧ names = []) ∨
      (∃ t i, t < hmm.NTimepoints ∧ i < hmm.N_states ∧ v = aId hmm.N_states t i ∧
        (pathStates names).length = t ∧ ∀ s ∈ pathStates names, s < hmm.N_states) ∨
      (∃ t i, t < hmm.NTimepoints ∧ i < hmm.N_states ∧ v = bId hmm.N_states t i ∧
        (pathStates names).length = t + 1 ∧ ∀ s ∈ pathStates names, s < hmm.N_states) ∨
      (v = 1 + 2 * hmm.N_states * hmm.NTimepoints ∧
        (pathStates names).length = hmm.NTimepoints ∧
        ∀ s ∈ pathStates names, s < hmm.N_states) := by
  intro v names hp
  induction hp with
  | nil => exact Or.inl ⟨to_WDAG_reqStart hmm, rfl⟩
  | @cons u v names e hpath hvlen hmem hpar ih =>
    rcases trellis_node_cases hmm v hvlen with hv0 | ⟨t, i, ht, hi, hveq⟩ |
      ⟨t, i, ht, hi, hveq⟩ | hvend
    · rw [hv0, to_WDAG_getD_start] at hmem
      simp at hmem
    · -- v is a layer-A node
      rw [hveq, to_WDAG_getD_A hmm t i ht hi] at hmem
      by_cases ht0 : t = 0
      · subst ht0
        have hnode : hmm.nodeA 0 i = ⟨[⟨0, .S i, hmm.init_probs.getD i 0⟩]⟩ := by
          simp [HMM.nodeA]
        rw [hnode, List.mem_singleton] at hmem
        subst hmem
        simp only at hpar
        rcases ih with ⟨hu0, hnames⟩ | ⟨t'', i'', _, hi'', hueq, _, _⟩ |
          ⟨t'', i'', _, hi'', hueq, _, _⟩ | ⟨hueq, _, _⟩
        · subst hnames
          refine Or.inr (Or.inl ⟨0, i, ht, hi, hveq, ?_, ?_⟩)
          · simp [pathStates_append, pathStates_single_S]
          · simp [pathStates_append, pathStates_single_S]
        · rw [hueq] at hpar
          exact absurd hpar.symm (aId_ne_zero _ _ _)
        · rw [hueq] at hpar
          exact absurd hpar.symm (bId_ne_zero _ _ _)
        · rw [hueq] at hpar
          omega
      · simp only [HMM.nodeA, if_neg ht0, List.mem_map, List.mem_range] at hmem
        obtain ⟨ip, hip, heq⟩ := hmem
        subst heq
        simp only at hpar
        rcases ih with ⟨hu0, hnames⟩ | ⟨t'', i'', _, hi'', hueq, _, _⟩ |
          ⟨t'', i'', ht'', hi'', hueq, hlen'', hmemb''⟩ | ⟨hueq, _, _⟩
        · rw [hu0] at hpar
          exact absurd hpar (bId_ne_zero _ _ _)
        · rw [hueq] at hpar
          exact absurd hpar.symm (aId_ne_bId _ _ _ _ _ hi'' hip)
        · rw [hueq] at hpar
          obtain ⟨hteq, hieq⟩ := bId_inj _ _ _ _ _ hip hi'' hpar
          refine Or.inr (Or.inl ⟨t, i, ht, hi, hveq, ?_, ?_⟩)
          · rw [pathStates_append, pathStates_single_T, List.append_nil]
            omega
          · rw [pathStates_append, pathStates_single_T, List.append_nil]
            exact hmemb''
        · rw [hueq] at hpar
          have hlt := bId_lt_end hmm.N_states (t - 1) ip hmm.NTimepoints
            (by omega) hip
          omega
    · -- v is a layer-B node
      rw [hveq, to_WDAG_getD_B hmm t i ht hi] at hmem
      simp only [HMM.nodeB, List.mem_singleton] at hmem
      subst hmem
      simp only at hpar
      rcases ih with ⟨hu0, hnames⟩ | ⟨t'', i'', ht'', hi'', hueq, hlen'', hmemb''⟩ |
        ⟨t'', i'', _, hi'', hueq, _, _⟩ | ⟨hueq, _, _⟩
      · rw [hu0] at hpar
        exact absurd hpar (aId_ne_zero _ _ _)
      · rw [hueq] at hpar
        obtain ⟨hteq, hieq⟩ := aId_inj _ _ _ _ _ hi hi'' hpar
        refine Or.inr (Or.inr (Or.inl ⟨t, i, ht, hi, hveq, ?_, ?_⟩))
        · rw [pathStates_append, pathStates_single_E, List.length_append]
          simp only [List.length_singleton]
          omega
        · intro s hs
          rw [pathStates_append, pathStates_single_E, List.mem_append,
            List.mem_singleton] at hs
          rcases hs with hs | hs
          · exact hmemb'' s hs
          · rw [hs]
            exact hi
      · rw [hueq] at hpar
        exact absurd hpar (aId_ne_bId _ _ _ _ _ hi hi'')
      · rw [hueq] at hpar
        have hlt := aId_lt_end hmm.N_states t i hmm.NTimepoints ht hi
        omega
    · -- v is the end node
      rw [hvend, to_WDAG_getD_end] at hmem
      simp only [List.mem_map, List.mem_range] at hmem
      obtain ⟨ip, hip, heq⟩ := hmem
      subst heq
      simp only at hpar
      rcases ih with ⟨hu0, hnames⟩ | ⟨t'', i'', _, hi'', hueq, _, _⟩ |
        ⟨t'', i'', ht'', hi'', hueq, hlen'', hmemb''⟩ | ⟨hueq, _, _⟩
      · rw [hu0] at hpar
        exact absurd hpar (bId_ne_zero _ _ _)
      · rw [hueq] at hpar
        exact absurd hpar.symm (aId_ne_bId _ _ _ _ _ hi'' hip)
      · rw [hueq] at hpar
        obtain ⟨hteq, hieq⟩ := bId_inj _ _ _ _ _ hip hi'' hpar
        refine Or.inr (Or.inr (Or.inr ⟨hvend, ?_, ?_⟩))
        · rw [pathStates_append, pathStates_single_F, List.append_nil]
          omega
        · rw [pathStates_append, pathStates_single_F, List.append_nil]
          exact hmemb''
      · rw [hueq] at hpar
        by_cases hT0 : hmm.NTimepoints = 0
        · rw [hT0] at hpar
          unfold bId at hpar
          omega
        · have hlt := bId_lt_end hmm.N_states (hmm.NTimepoints - 1) ip
            hmm.NTimepoints (by omega) hip
          omega

/-! ### C9 -/

/-- C9: for any start-to-end walk of the trellis (in particular the
best path returned by the solver inside `ViterbiTraining`), the predicted
state sequence extracted from its emission edges has length exactly `T`,
every entry is a state id below `N`, `AdjustProbsToViterbi` succeeds and
returns exactly that sequence, and sets
`state_freqs[i] = state_counts[i] / T` as a real value. -/
theorem claim9_viterbi_path_and_freqs (hmm : HMM) (names : List EdgeName)
    (hN : 1 ≤ hmm.N_states) (hT : 1 ≤ hmm.NTimepoints)
    (hp : IsPath hmm.to_WDAG (1 + 2 * hmm.N_states * hmm.NTimepoints) names) :
    (pathStates names).length = hmm.NTimepoints ∧
    (∀ s ∈ pathStates names, s < hmm.N_states) ∧
    ∃ hmm' change,
      hmm.AdjustProbsToViterbi names = some (hmm', pathStates names, change) ∧
      ∀ i, i < hmm.N_states →
        hmm'.state_freqs.getD i 0 =
          ((pathStates names).count i : ℝ) / (hmm.NTimepoints : ℝ) := by
  have hinv := trellisPath_inv hmm hN _ names hp
  have hlen : (pathStates names).length = hmm.NTimepoints ∧
      ∀ s ∈ pathStates names, s < hmm.N_states := by
    rcases hinv with ⟨h0, _⟩ | ⟨t, i, ht, hi, heq, _, _⟩ |
      ⟨t, i, ht, hi, heq, _, _⟩ | ⟨_, h1, h2⟩
    · omega
    · exact absurd heq.symm (Nat.ne_of_lt (aId_lt_end _ _ _ _ ht hi))
    · exact absurd heq.symm (Nat.ne_of_lt (bId_lt_end _ _ _ _ ht hi))
    · exact ⟨h1, h2⟩
  obtain ⟨hlen1, hmem1⟩ := hlen
  refine ⟨hlen1, hmem1, ?_⟩
  have hne : names.isEmpty = false := by
    cases names with
    | nil =>
      rw [pathStates_nil] at hlen1
      simp at hlen1
      omega
    | cons a l => rfl
  have hstates : (vitTally hmm.is_discrete_HMM names).states = pathStates names :=
    vitTally_states _ _
  unfold HMM.AdjustProbsToViterbi
  simp only [hne, Bool.false_eq_true, if_false, hstates, hlen1, ne_eq,
    not_true_eq_false, if_false, Bool.false_eq_true]
  refine ⟨_, _, rfl, ?_⟩
  intro i hi
  rw [List.getD_eq_getElem?_getD, List.getElem?_map, List.getElem?_range hi]
  simp [vitTally_state_counts]

/-- A fully loaded continuous HMM with 1 state and 1 timepoint. -/
def hmmF : HMM :=
  ⟨1, 0, [0], [[0]], [], [], [[0]], [], true, true, false, false, true, false, false⟩

/-- The unique start-to-end walk of the 1-state 1-timepoint trellis. -/
theorem hmmF_path :
    IsPath hmmF.to_WDAG (1 + 2 * hmmF.N_states * hmmF.NTimepoints)
      [.S 0, .E 0 (-1), .F] := by
  have hA : hmmF.to_WDAG.nodes.getD 1 default = hmmF.nodeA 0 0 := by
    have h := to_WDAG_getD_A hmmF 0 0 (by decide) (by decide)
    have he : aId hmmF.N_states 0 0 = 1 := rfl
    rw [he] at h
    exact h
  have hB : hmmF.to_WDAG.nodes.getD 2 default = hmmF.nodeB 0 0 := by
    have h := to_WDAG_getD_B hmmF 0 0 (by decide) (by decide)
    have he : bId hmmF.N_states 0 0 = 2 := rfl
    rw [he] at h
    exact h
  have hEnd : hmmF.to_WDAG.nodes.getD 3 default =
      ⟨[⟨2, .F, 0⟩]⟩ := by
    have h := to_WDAG_getD_end hmmF
    exact h
  have hlen : hmmF.to_WDAG.nodes.length = 4 := by
    rw [to_WDAG_nodes_length]
    decide
  have p1 : IsPath hmmF.to_WDAG 1 [.S 0] := by
    refine IsPath.cons (e := ⟨0, .S 0, hmmF.init_probs.getD 0 0⟩) IsPath.nil
      (by omega) ?_ rfl
    rw [hA]
    simp [HMM.nodeA]
  have p2 : IsPath hmmF.to_WDAG 2 [.S 0, .E 0 (-1)] := by
    refine IsPath.cons (e := ⟨1, .E 0 (-1), hmmF.emissProb 0 0⟩) p1
      (by omega) ?_ rfl
    rw [hB]
    simp [HMM.nodeB, HMM.emissObs, HMM.is_discrete_HMM, hmmF, aId]
  have p3 : IsPath hmmF.to_WDAG 3 [.S 0, .E 0 (-1), .F] := by
    refine IsPath.cons (e := ⟨2, .F, 0⟩) p2 (by omega) ?_ rfl
    rw [hEnd]
    simp
  exact p3

/-- Witness for C9: on the 1-state 1-timepoint continuous model, the
unique trellis walk has one emission edge, and Viterbi re-estimation
returns the predicted state `[0]` with `state_freqs[0] = 1/1`. -/
theorem claim9_witness :
    1 ≤ hmmF.N_states ∧ 1 ≤ hmmF.NTimepoints ∧
    ((pathStates [.S 0, .E 0 (-1), .F]).length = hmmF.NTimepoints ∧
      (∀ s ∈ pathStates [.S 0, .E 0 (-1), .F], s < hmmF.N_states) ∧
      ∃ hmm' change,
        hmmF.AdjustProbsToViterbi [.S 0, .E 0 (-1), .F] =
          some (hmm', pathStates [.S 0, .E 0 (-1), .F], change) ∧
        ∀ i, i < hmmF.N_states →
          hmm'.state_freqs.getD i 0 =
            ((pathStates [.S 0, .E 0 (-1), .F]).count i : ℝ) /
              (hmmF.NTimepoints : ℝ)) :=
  ⟨by decide, by decide,
    claim9_viterbi_path_and_freqs hmmF [.S 0, .E 0 (-1), .F]
      (by decide) (by decide) hmmF_path⟩

end Lachesis
